import Mathlib

/-!
Shallow embedding of `src/c-learning/hash-table/hash-table.c`: a fixed-capacity
separate-chaining hash table mapping C strings to C strings, with DJB2 hashing,
prepend-on-new-key insertion, in-place value update, single-node deletion and
bucket-order enumeration.

C strings are modelled as lists of (nonzero) byte values; the `unsigned long`
accumulator of the hash wraps modulo 2^64; `strcmp(a, b) == 0` is byte-list
equality.  A table is its list of buckets (the capacity is the list length,
matching `TABLE_SIZE`); each bucket is the chain of nodes from head to tail.
-/

namespace HashTableC

/-- A C string: its bytes, in order, without the terminating NUL. -/
abbrev Str := List Nat

/-- Bytes of a Lean string literal, used for the worked examples. -/
def str (s : String) : Str := s.data.map Char.toNat

/-- `struct node`: an owned key, an owned value; the `next` pointer is the
tail of the enclosing list. -/
structure node where
  key : Str
  value : Str
deriving DecidableEq

/-- A bucket's singly-linked chain, head first. -/
abbrev Chain := List node

/-- `hash_table`: the array of buckets; the capacity is the length. -/
abbrev hash_table := List Chain

/-- Wraparound modulus of the `unsigned long` accumulator. -/
def U64 : Nat := 2 ^ 64

/-- One iteration of the DJB2 loop: `hash = ((hash << 5) + hash) + c`,
with unsigned wraparound. -/
def hashStep (h c : Nat) : Nat := ((h <<< 5) + h + c) % U64

/-- The DJB2 accumulator after consuming the whole key, seed 5381. -/
def hashAcc (word : Str) : Nat := word.foldl hashStep 5381

/-- `hash(word, table_size)`: DJB2 accumulator reduced modulo the table size. -/
def hash (word : Str) (table_size : Nat) : Nat := hashAcc word % table_size

/-- `create_table()`: every bucket initialized to NULL. -/
def create_table (capacity : Nat) : hash_table := List.replicate capacity []

/-- Read bucket `i` (an out-of-range index reads as an empty chain; all
operations index with `hash`, which stays in range for positive capacity). -/
def bucketOf (ht : hash_table) (i : Nat) : Chain := ht.getD i []

/-- The scan-and-update loop of `insert`: walk the chain; at the first node
whose key matches, replace its value in place and stop (`some` of the updated
chain); `none` if the chain is exhausted without a match. -/
def updateValue (k v : Str) : Chain → Option Chain
  | [] => none
  | n :: rest =>
    if n.key = k then some ({ key := n.key, value := v } :: rest)
    else (updateValue k v rest).map (n :: ·)

/-- Effect of `insert` on the target bucket: update in place if the key is
found, otherwise prepend a fresh node as the new head. -/
def insertChain (k v : Str) (b : Chain) : Chain :=
  match updateValue k v b with
  | some b2 => b2
  | none => { key := k, value := v } :: b

/-- `insert(ht, key, value)`. -/
def insert (ht : hash_table) (k v : Str) : hash_table :=
  let index := hash k ht.length
  ht.set index (insertChain k v (bucketOf ht index))

/-- The lookup loop of `get`: first node with a matching key wins. -/
def getChain (k : Str) : Chain → Option Str
  | [] => none
  | n :: rest => if n.key = k then some n.value else getChain k rest

/-- `get(ht, key)`: the found value, or `none` for the NULL return. -/
def get (ht : hash_table) (k : Str) : Option Str :=
  getChain k (bucketOf ht (hash k ht.length))

/-- The three observable outcomes of `delete`, one per `printf`. -/
inductive DeleteResult
  /-- "No nodes to delete": the bucket was empty. -/
  | noNodes
  /-- "Deleted key: %s": a node was spliced out and freed. -/
  | deleted
  /-- "Key not found: %s": the chain was scanned without a match. -/
  | notFound
deriving DecidableEq

/-- The splice loop of `delete`: remove the first node with a matching key
(`some` of the shortened chain), or `none` if no node matches. -/
def deleteChain (k : Str) : Chain → Option Chain
  | [] => none
  | n :: rest => if n.key = k then some rest else (deleteChain k rest).map (n :: ·)

/-- `delete(ht, key)`: the table afterwards, with the observable outcome. -/
def delete (ht : hash_table) (k : Str) : hash_table × DeleteResult :=
  let index := hash k ht.length
  let b := bucketOf ht index
  if b = [] then (ht, .noNodes)
  else
    match deleteChain k b with
    | some b2 => (ht.set index b2, .deleted)
    | none => (ht, .notFound)

/-- The (key, value) pairs of one bucket, head first, as `print_table`
renders them. -/
def entriesChain (b : Chain) : List (Str × Str) := b.map (fun n => (n.key, n.value))

/-- Full enumeration: buckets in index order, each chain head to tail
(`print_table` / `for_each`). -/
def entries : hash_table → List (Str × Str)
  | [] => []
  | b :: rest => entriesChain b ++ entries rest

/-- The keys of one bucket, head first. -/
def chainKeys (b : Chain) : List Str := b.map node.key

/-- All keys in enumeration order. -/
def tableKeys : hash_table → List Str
  | [] => []
  | b :: rest => chainKeys b ++ tableKeys rest

/-- How many times `k` occurs in a list of keys. -/
def countKey (k : Str) : List Str → Nat
  | [] => 0
  | x :: rest => (if x = k then 1 else 0) + countKey k rest

/-- Run a sequence of inserts. -/
def runInserts (ht : hash_table) (ops : List (Str × Str)) : hash_table :=
  ops.foldl (fun t p => insert t p.1 p.2) ht

/-- The value supplied by the most recent insert of `k` in `ops`, if any. -/
def lastValueOf (k : Str) : List (Str × Str) → Option Str
  | [] => none
  | p :: rest =>
    match lastValueOf k rest with
    | some v => some v
    | none => if p.1 = k then some p.2 else none

/-- The five inserts of the demo driver, capacity 11, with the values
abbreviated as in the spec's worked scenario. -/
def scenarioOps : List (Str × Str) :=
  [(str "Charlie", str "A"), (str "Mac", str "B"), (str "Dee", str "C"),
   (str "Dennis", str "D"), (str "Frank", str "E")]

/-- The table of the worked scenario after the five inserts. -/
def scenarioTable : hash_table := runInserts (create_table 11) scenarioOps

/-- An operation of the driver: an insert or a delete. -/
inductive Op
  | ins (k v : Str)
  | del (k : Str)
deriving DecidableEq

/-- Run a sequence of inserts and deletes. -/
def runOps (ht : hash_table) : List Op → hash_table
  | [] => ht
  | .ins k v :: rest => runOps (insert ht k v) rest
  | .del k :: rest => runOps (delete ht k).1 rest

/-- All keys ever passed to an insert in `ops`. -/
def insKeys : List Op → List Str
  | [] => []
  | .ins k _ :: rest => k :: insKeys rest
  | .del _ :: rest => insKeys rest

/-- The keys whose delete, at its point in the run, signalled success. -/
def succDeleted (ht : hash_table) : List Op → List Str
  | [] => []
  | .ins k v :: rest => succDeleted (insert ht k v) rest
  | .del k :: rest =>
    (if (delete ht k).2 = .deleted then [k] else []) ++ succDeleted (delete ht k).1 rest

/-- The key set as evolved by the abstract model: an insert adds the key,
a delete removes it. -/
def specKeys : List Op → List Str → List Str
  | [], s => s
  | .ins k _ :: rest, s => specKeys rest (k :: s)
  | .del k :: rest, s => specKeys rest (s.filter (fun k2 => !decide (k2 = k)))

/-- Validity invariant of a reachable table: every bucket's keys are
pairwise distinct, and every node sits in the bucket its key hashes to. -/
def WF (ht : hash_table) : Prop :=
  ∀ i, i < ht.length →
    (chainKeys (bucketOf ht i)).Nodup ∧
    ∀ n ∈ bucketOf ht i, hash n.key ht.length = i

instance (ht : hash_table) : Decidable (WF ht) := by
  unfold WF
  exact Nat.decidableBallLT _ _

section AllocModel

/-- A node as built by `insert` when string copies may fail: `none` models a
NULL pointer returned by a failed `strdup`. -/
structure nodeA where
  key : Option Str
  value : Option Str
deriving DecidableEq

/-- A chain of possibly-partial nodes. -/
abbrev ChainA := List nodeA

/-- A table of possibly-partial nodes. -/
abbrev hash_tableA := List ChainA

/-- Outcome of each allocation `insert` performs: the `malloc` of the node,
and the `strdup` of the key and of the value. -/
structure AllocPlan where
  nodeOk : Bool
  keyOk : Bool
  valOk : Bool
deriving DecidableEq

/-- `create_table()` in the allocation-aware model. -/
def create_tableA (capacity : Nat) : hash_tableA := List.replicate capacity []

/-- Read bucket `i` in the allocation-aware model. -/
def bucketOfA (ht : hash_tableA) (i : Nat) : ChainA := ht.getD i []

/-- The scan-and-update loop with a possibly-failed `strdup` of the new
value: the matched node's value becomes whatever `strdup` returned. -/
def updateValueA (k : Str) (newVal : Option Str) : ChainA → Option ChainA
  | [] => none
  | n :: rest =>
    if n.key = some k then some ({ key := n.key, value := newVal } :: rest)
    else (updateValueA k newVal rest).map (n :: ·)

/-- `insert` with explicit allocation outcomes, returning the table and the
lines printed.  Only the node `malloc` is checked; a failed `strdup` of key
or value stores NULL in the freshly linked node, silently. -/
def insertA (plan : AllocPlan) (ht : hash_tableA) (k v : Str) :
    hash_tableA × List String :=
  let index := hash k ht.length
  let b := bucketOfA ht index
  match updateValueA k (if plan.valOk then some v else none) b with
  | some b2 => (ht.set index b2, [])
  | none =>
    if plan.nodeOk then
      (ht.set index
        ({ key := if plan.keyOk then some k else none,
           value := if plan.valOk then some v else none } :: b), [])
    else (ht, ["Memory allocation failed"])

end AllocModel

/-! ### Bucket access lemmas -/

theorem bucketOf_nil (i : Nat) : bucketOf [] i = [] := by
  cases i <;> rfl

theorem bucketOf_cons_zero (b : Chain) (ht : hash_table) : bucketOf (b :: ht) 0 = b := rfl

theorem bucketOf_cons_succ (b : Chain) (ht : hash_table) (i : Nat) :
    bucketOf (b :: ht) (i + 1) = bucketOf ht i := rfl

theorem get?_eq_bucketOf :
    ∀ (ht : hash_table) (i : Nat), i < ht.length → ht.get? i = some (bucketOf ht i)
  | [], i, h => by simp at h
  | b :: ht, 0, _ => rfl
  | b :: ht, i + 1, h => by
    simpa [bucketOf_cons_succ] using get?_eq_bucketOf ht i (Nat.lt_of_succ_lt_succ h)

theorem bucketOf_set_self :
    ∀ (ht : hash_table) (i : Nat) (b : Chain), i < ht.length →
      bucketOf (ht.set i b) i = b
  | [], i, b, h => by simp at h
  | c :: ht, 0, b, _ => rfl
  | c :: ht, i + 1, b, h => by
    simpa [List.set, bucketOf_cons_succ] using
      bucketOf_set_self ht i b (Nat.lt_of_succ_lt_succ h)

theorem bucketOf_set_ne :
    ∀ (ht : hash_table) (i j : Nat) (b : Chain), j ≠ i →
      bucketOf (ht.set i b) j = bucketOf ht j
  | [], i, j, b, _ => by simp
  | c :: ht, 0, 0, b, h => absurd rfl h
  | c :: ht, 0, j + 1, b, _ => rfl
  | c :: ht, i + 1, 0, b, _ => rfl
  | c :: ht, i + 1, j + 1, b, h => by
    simpa [List.set, bucketOf_cons_succ] using
      bucketOf_set_ne ht i j b (fun hj => h (by omega))

theorem hash_lt (w : Str) (n : Nat) (hn : 0 < n) : hash w n < n :=
  Nat.mod_lt _ hn

theorem length_insert (ht : hash_table) (k v : Str) :
    (insert ht k v).length = ht.length := by
  simp [insert]

/-! ### Chain-level lemmas about the insert scan -/

theorem updateValue_eq_none (k v : Str) :
    ∀ b : Chain, updateValue k v b = none ↔ k ∉ chainKeys b
  | [] => by simp [updateValue, chainKeys]
  | n :: rest => by
    by_cases hk : n.key = k
    · simp [updateValue, hk, chainKeys]
    · have hne : k ≠ n.key := fun hc => hk hc.symm
      simp [updateValue, hk, chainKeys, hne, updateValue_eq_none k v rest]

theorem chainKeys_updateValue (k v : Str) :
    ∀ (b b' : Chain), updateValue k v b = some b' → chainKeys b' = chainKeys b
  | [], b', h => by simp [updateValue] at h
  | n :: rest, b', h => by
    by_cases hk : n.key = k
    · simp only [updateValue, if_pos hk, Option.some.injEq] at h
      subst h; rfl
    · simp only [updateValue, if_neg hk, Option.map_eq_some'] at h
      obtain ⟨r', hr', rfl⟩ := h
      have ih := chainKeys_updateValue k v rest r' hr'
      simp only [chainKeys, List.map_cons] at ih ⊢
      rw [ih]

theorem getChain_updateValue_self (k v : Str) :
    ∀ (b b' : Chain), updateValue k v b = some b' → getChain k b' = some v
  | [], b', h => by simp [updateValue] at h
  | n :: rest, b', h => by
    by_cases hk : n.key = k
    · simp only [updateValue, if_pos hk, Option.some.injEq] at h
      subst h; simp [getChain, hk]
    · simp only [updateValue, if_neg hk, Option.map_eq_some'] at h
      obtain ⟨r', hr', rfl⟩ := h
      simp [getChain, hk, getChain_updateValue_self k v rest r' hr']

theorem getChain_updateValue_ne (k v k2 : Str) (hne : k2 ≠ k) :
    ∀ (b b' : Chain), updateValue k v b = some b' → getChain k2 b' = getChain k2 b
  | [], b', h => by simp [updateValue] at h
  | n :: rest, b', h => by
    by_cases hk : n.key = k
    · simp only [updateValue, if_pos hk, Option.some.injEq] at h
      subst h
      have hnk : ¬ n.key = k2 := fun hc => hne (hc.symm.trans hk)
      simp [getChain, hnk]
    · simp only [updateValue, if_neg hk, Option.map_eq_some'] at h
      obtain ⟨r', hr', rfl⟩ := h
      simp [getChain, getChain_updateValue_ne k v k2 hne rest r' hr']

theorem getChain_eq_none (k : Str) :
    ∀ b : Chain, getChain k b = none ↔ k ∉ chainKeys b
  | [] => by simp [getChain, chainKeys]
  | n :: rest => by
    by_cases hk : n.key = k
    · simp [getChain, hk, chainKeys]
    · have hne : k ≠ n.key := fun hc => hk hc.symm
      simp [getChain, hk, chainKeys, hne, getChain_eq_none k rest]

theorem getChain_insertChain_self (k v : Str) (b : Chain) :
    getChain k (insertChain k v b) = some v := by
  unfold insertChain
  cases h : updateValue k v b with
  | some b2 => exact getChain_updateValue_self k v b b2 h
  | none => simp [getChain]

theorem getChain_insertChain_ne (k v k2 : Str) (hne : k2 ≠ k) (b : Chain) :
    getChain k2 (insertChain k v b) = getChain k2 b := by
  unfold insertChain
  cases h : updateValue k v b with
  | some b2 => exact getChain_updateValue_ne k v k2 hne b b2 h
  | none =>
    have : ¬ ({ key := k, value := v } : node).key = k2 := fun hc => hne (hc.symm)
    simp [getChain, this]

theorem chainKeys_insertChain_found (k v : Str) (b : Chain) (hk : k ∈ chainKeys b) :
    chainKeys (insertChain k v b) = chainKeys b := by
  unfold insertChain
  cases h : updateValue k v b with
  | some b2 => exact chainKeys_updateValue k v b b2 h
  | none => exact absurd hk ((updateValue_eq_none k v b).mp h)

theorem chainKeys_insertChain_new (k v : Str) (b : Chain) (hk : k ∉ chainKeys b) :
    chainKeys (insertChain k v b) = k :: chainKeys b := by
  unfold insertChain
  cases h : updateValue k v b with
  | some b2 => exact absurd ((updateValue_eq_none k v b).not.mp (by simp [h])) (by simp [hk])
  | none => rfl

theorem mem_chainKeys_insertChain (k v x : Str) (b : Chain) :
    x ∈ chainKeys (insertChain k v b) ↔ x = k ∨ x ∈ chainKeys b := by
  by_cases hk : k ∈ chainKeys b
  · rw [chainKeys_insertChain_found k v b hk]
    constructor
    · exact Or.inr
    · rintro (rfl | hx)
      · exact hk
      · exact hx
  · rw [chainKeys_insertChain_new k v b hk]
    simp

/-! ### Chain-level lemmas about the delete splice -/

theorem deleteChain_eq_none (k : Str) :
    ∀ b : Chain, deleteChain k b = none ↔ k ∉ chainKeys b
  | [] => by simp [deleteChain, chainKeys]
  | n :: rest => by
    by_cases hk : n.key = k
    · simp [deleteChain, hk, chainKeys]
    · have hne : k ≠ n.key := fun hc => hk hc.symm
      simp [deleteChain, hk, chainKeys, hne, deleteChain_eq_none k rest]

theorem deleteChain_sublist (k : Str) :
    ∀ (b b' : Chain), deleteChain k b = some b' → b'.Sublist b
  | [], b', h => by simp [deleteChain] at h
  | n :: rest, b', h => by
    by_cases hk : n.key = k
    · simp only [deleteChain, if_pos hk, Option.some.injEq] at h
      subst h
      exact List.sublist_cons_self n rest
    · simp only [deleteChain, if_neg hk, Option.map_eq_some'] at h
      obtain ⟨r', hr', rfl⟩ := h
      exact List.Sublist.cons₂ n (deleteChain_sublist k rest r' hr')

theorem length_deleteChain (k : Str) :
    ∀ (b b' : Chain), deleteChain k b = some b' → b.length = b'.length + 1
  | [], b', h => by simp [deleteChain] at h
  | n :: rest, b', h => by
    by_cases hk : n.key = k
    · simp only [deleteChain, if_pos hk, Option.some.injEq] at h
      subst h; rfl
    · simp only [deleteChain, if_neg hk, Option.map_eq_some'] at h
      obtain ⟨r', hr', rfl⟩ := h
      simp [length_deleteChain k rest r' hr']

theorem getChain_deleteChain_ne (k k2 : Str) (hne : k2 ≠ k) :
    ∀ (b b' : Chain), deleteChain k b = some b' → getChain k2 b' = getChain k2 b
  | [], b', h => by simp [deleteChain] at h
  | n :: rest, b', h => by
    by_cases hk : n.key = k
    · simp only [deleteChain, if_pos hk, Option.some.injEq] at h
      subst h
      have hnk : ¬ n.key = k2 := fun hc => hne (hc.symm.trans hk)
      simp [getChain, hnk]
    · simp only [deleteChain, if_neg hk, Option.map_eq_some'] at h
      obtain ⟨r', hr', rfl⟩ := h
      simp [getChain, getChain_deleteChain_ne k k2 hne rest r' hr']

theorem mem_chainKeys_deleteChain (k x : Str) :
    ∀ (b b' : Chain), deleteChain k b = some b' → (chainKeys b).Nodup →
      (x ∈ chainKeys b' ↔ x ∈ chainKeys b ∧ x ≠ k)
  | [], b', h, _ => by simp [deleteChain] at h
  | n :: rest, b', h, hnd => by
    have hnd' : (chainKeys rest).Nodup ∧ n.key ∉ chainKeys rest := by
      have := hnd
      simp only [chainKeys, List.map_cons, List.nodup_cons] at this
      exact ⟨this.2, this.1⟩
    by_cases hk : n.key = k
    · simp only [deleteChain, if_pos hk, Option.some.injEq] at h
      subst h
      subst hk
      constructor
      · intro hx
        refine ⟨by simp [chainKeys] at hx ⊢; exact Or.inr hx, ?_⟩
        intro hxk
        exact hnd'.2 (hxk ▸ hx)
      · rintro ⟨hx, hxk⟩
        simp only [chainKeys, List.map_cons, List.mem_cons] at hx
        rcases hx with rfl | hx
        · exact absurd rfl hxk
        · exact hx
    · simp only [deleteChain, if_neg hk, Option.map_eq_some'] at h
      obtain ⟨r', hr', rfl⟩ := h
      have ih := mem_chainKeys_deleteChain k x rest r' hr' hnd'.1
      simp only [chainKeys, List.map_cons, List.mem_cons] at ih ⊢
      constructor
      · rintro (rfl | hx)
        · exact ⟨Or.inl rfl, fun hc => hk hc⟩
        · have := ih.mp hx
          exact ⟨Or.inr this.1, this.2⟩
      · rintro ⟨rfl | hx, hxk⟩
        · exact Or.inl rfl
        · exact Or.inr (ih.mpr ⟨hx, hxk⟩)

/-! ### Table-level lemmas -/

theorem insert_def (ht : hash_table) (k v : Str) :
    insert ht k v =
      ht.set (hash k ht.length) (insertChain k v (bucketOf ht (hash k ht.length))) := rfl

theorem get_def (ht : hash_table) (k : Str) :
    get ht k = getChain k (bucketOf ht (hash k ht.length)) := rfl

theorem get_insert_self (ht : hash_table) (k v : Str) (hlen : 0 < ht.length) :
    get (insert ht k v) k = some v := by
  rw [get_def, insert_def, List.length_set,
    bucketOf_set_self _ _ _ (hash_lt k ht.length hlen)]
  exact getChain_insertChain_self k v _

theorem get_insert_ne (ht : hash_table) (k v k2 : Str) (hlen : 0 < ht.length)
    (hne : k2 ≠ k) : get (insert ht k v) k2 = get ht k2 := by
  rw [get_def, get_def, insert_def, List.length_set]
  by_cases hidx : hash k2 ht.length = hash k ht.length
  · rw [hidx, bucketOf_set_self _ _ _ (hash_lt k ht.length hlen)]
    exact getChain_insertChain_ne k v k2 hne _
  · rw [bucketOf_set_ne _ _ _ _ hidx]

theorem length_delete (ht : hash_table) (k : Str) :
    (delete ht k).1.length = ht.length := by
  unfold delete
  by_cases hb : bucketOf ht (hash k ht.length) = []
  · simp [hb]
  · cases h : deleteChain k (bucketOf ht (hash k ht.length)) <;> simp [hb, h]

theorem bucketOf_create : ∀ (capacity i : Nat), bucketOf (create_table capacity) i = []
  | 0, i => bucketOf_nil i
  | c + 1, 0 => rfl
  | c + 1, i + 1 => by
    simpa [create_table, List.replicate_succ, bucketOf_cons_succ] using bucketOf_create c i

theorem mem_tableKeys_iff (x : Str) :
    ∀ ht : hash_table,
      x ∈ tableKeys ht ↔ ∃ i, i < ht.length ∧ x ∈ chainKeys (bucketOf ht i)
  | [] => by simp [tableKeys]
  | c :: ht => by
    simp only [tableKeys, List.mem_append]
    constructor
    · rintro (hx | hx)
      · exact ⟨0, Nat.succ_pos _, hx⟩
      · obtain ⟨i, hi, hxi⟩ := (mem_tableKeys_iff x ht).mp hx
        exact ⟨i + 1, Nat.succ_lt_succ hi, hxi⟩
    · rintro ⟨i, hi, hxi⟩
      cases i with
      | zero => exact Or.inl hxi
      | succ i =>
        exact Or.inr ((mem_tableKeys_iff x ht).mpr ⟨i, Nat.lt_of_succ_lt_succ hi, hxi⟩)

theorem WF_keys (ht : hash_table) (hwf : WF ht) (i : Nat) (hi : i < ht.length)
    (x : Str) (hx : x ∈ chainKeys (bucketOf ht i)) : hash x ht.length = i := by
  obtain ⟨n, hn, rfl⟩ := List.mem_map.mp hx
  exact (hwf i hi).2 n hn

theorem WF_create (capacity : Nat) : WF (create_table capacity) := by
  intro i hi
  rw [bucketOf_create]
  simp [chainKeys]

theorem WF_insert (ht : hash_table) (k v : Str) (hlen : 0 < ht.length) (hwf : WF ht) :
    WF (insert ht k v) := by
  intro i hi
  rw [insert_def] at hi ⊢
  rw [List.length_set] at hi ⊢
  by_cases hii : i = hash k ht.length
  · subst hii
    rw [bucketOf_set_self _ _ _ (hash_lt k ht.length hlen)]
    constructor
    · by_cases hk : k ∈ chainKeys (bucketOf ht (hash k ht.length))
      · rw [chainKeys_insertChain_found k v _ hk]
        exact (hwf _ hi).1
      · rw [chainKeys_insertChain_new k v _ hk]
        exact List.Nodup.cons hk (hwf _ hi).1
    · intro n hn
      have hkey : n.key ∈ chainKeys (insertChain k v (bucketOf ht (hash k ht.length))) :=
        List.mem_map_of_mem node.key hn
      rcases (mem_chainKeys_insertChain k v n.key _).mp hkey with hke | hke
      · rw [hke]
      · exact WF_keys ht hwf _ hi n.key hke
  · rw [bucketOf_set_ne _ _ _ _ hii]
    exact hwf i hi

theorem delete_empty (ht : hash_table) (k : Str)
    (hb : bucketOf ht (hash k ht.length) = []) : delete ht k = (ht, .noNodes) := by
  unfold delete
  simp [hb]

theorem delete_found (ht : hash_table) (k : Str) (b2 : Chain)
    (hb : bucketOf ht (hash k ht.length) ≠ [])
    (h : deleteChain k (bucketOf ht (hash k ht.length)) = some b2) :
    delete ht k = (ht.set (hash k ht.length) b2, .deleted) := by
  unfold delete
  simp [hb, h]

theorem delete_miss (ht : hash_table) (k : Str)
    (hb : bucketOf ht (hash k ht.length) ≠ [])
    (h : deleteChain k (bucketOf ht (hash k ht.length)) = none) :
    delete ht k = (ht, .notFound) := by
  unfold delete
  simp [hb, h]

theorem WF_delete (ht : hash_table) (k : Str) (hwf : WF ht) : WF (delete ht k).1 := by
  by_cases hb : bucketOf ht (hash k ht.length) = []
  · rw [delete_empty ht k hb]
    exact hwf
  · cases h : deleteChain k (bucketOf ht (hash k ht.length)) with
    | none =>
      rw [delete_miss ht k hb h]
      exact hwf
    | some b2 =>
      rw [delete_found ht k b2 hb h]
      intro i hi
      simp only [List.length_set] at hi ⊢
      have hsub : b2.Sublist (bucketOf ht (hash k ht.length)) := deleteChain_sublist k _ b2 h
      have hpos : 0 < ht.length := by
        cases ht with
        | nil => exact absurd (bucketOf_nil _) hb
        | cons a l => simp
      have hidxlt : hash k ht.length < ht.length := hash_lt k ht.length hpos
      by_cases hii : i = hash k ht.length
      · subst hii
        rw [bucketOf_set_self _ _ _ hidxlt]
        constructor
        · exact List.Nodup.sublist (List.Sublist.map node.key hsub) (hwf _ hidxlt).1
        · intro n hn
          exact (hwf _ hidxlt).2 n (hsub.subset hn)
      · rw [bucketOf_set_ne _ _ _ _ hii]
        exact hwf i hi

theorem countKey_append (k : Str) :
    ∀ l1 l2 : List Str, countKey k (l1 ++ l2) = countKey k l1 + countKey k l2
  | [], l2 => by simp [countKey]
  | x :: l1, l2 => by
    simp [countKey, countKey_append k l1 l2]
    omega

theorem countKey_eq_zero (k : Str) :
    ∀ l : List Str, countKey k l = 0 ↔ k ∉ l
  | [] => by simp [countKey]
  | x :: l => by
    by_cases hx : x = k
    · subst hx
      simp [countKey]
    · have : k ≠ x := fun hc => hx hc.symm
      simp [countKey, hx, this, countKey_eq_zero k l]

theorem countKey_le_one_of_nodup (k : Str) :
    ∀ l : List Str, l.Nodup → countKey k l ≤ 1
  | [], _ => by simp [countKey]
  | x :: l, hnd => by
    have hx : x ∉ l := (List.nodup_cons.mp hnd).1
    have hl : l.Nodup := (List.nodup_cons.mp hnd).2
    by_cases hxk : x = k
    · subst hxk
      have : countKey x l = 0 := (countKey_eq_zero x l).mpr hx
      simp [countKey, this]
    · have := countKey_le_one_of_nodup k l hl
      simp [countKey, hxk]
      omega

theorem count_tableKeys_le_one_aux :
    ∀ (l : hash_table) (k : Str) (tgt start : Nat),
      (∀ j, j < l.length → k ∈ chainKeys (bucketOf l j) → tgt = start + j) →
      (∀ j, j < l.length → (chainKeys (bucketOf l j)).Nodup) →
      countKey k (tableKeys l) ≤ 1
  | [], k, tgt, start, _, _ => by simp [tableKeys, countKey]
  | c :: l, k, tgt, start, hplace, hnd => by
    rw [show tableKeys (c :: l) = chainKeys c ++ tableKeys l from rfl, countKey_append]
    by_cases hkc : k ∈ chainKeys c
    · have htgt : tgt = start := by simpa using hplace 0 (Nat.succ_pos _) hkc
      have hrest : countKey k (tableKeys l) = 0 := by
        rw [countKey_eq_zero]
        intro hmem
        obtain ⟨j, hj, hkj⟩ := (mem_tableKeys_iff k l).mp hmem
        have := hplace (j + 1) (Nat.succ_lt_succ hj) hkj
        omega
      have hc1 : countKey k (chainKeys c) ≤ 1 :=
        countKey_le_one_of_nodup k (chainKeys c) (hnd 0 (Nat.succ_pos _))
      omega
    · have hc0 : countKey k (chainKeys c) = 0 := (countKey_eq_zero k (chainKeys c)).mpr hkc
      have hrec := count_tableKeys_le_one_aux l k tgt (start + 1)
        (fun j hj hk => by
          have := hplace (j + 1) (Nat.succ_lt_succ hj) hk
          omega)
        (fun j hj => hnd (j + 1) (Nat.succ_lt_succ hj))
      omega

theorem count_tableKeys_le_one (ht : hash_table) (k : Str) (hwf : WF ht) :
    countKey k (tableKeys ht) ≤ 1 := by
  apply count_tableKeys_le_one_aux ht k (hash k ht.length) 0
  · intro j hj hk
    have := WF_keys ht hwf j hj k hk
    omega
  · intro j hj
    exact (hwf j hj).1

/-! ### Enumeration lemmas -/

theorem map_fst_entriesChain (b : Chain) :
    (entriesChain b).map Prod.fst = chainKeys b := by
  simp [entriesChain, chainKeys, List.map_map]

theorem tableKeys_eq_map :
    ∀ ht : hash_table, tableKeys ht = (entries ht).map Prod.fst
  | [] => rfl
  | b :: ht => by
    simp [tableKeys, entries, tableKeys_eq_map ht, map_fst_entriesChain]

theorem entries_set_decomp :
    ∀ (ht : hash_table) (i : Nat) (b' : Chain), i < ht.length →
      ∃ l r, entries ht = l ++ (entriesChain (bucketOf ht i) ++ r) ∧
             entries (ht.set i b') = l ++ (entriesChain b' ++ r)
  | [], i, b', h => by simp at h
  | c :: ht, 0, b', _ =>
    ⟨[], entries ht, by simp [entries, bucketOf_cons_zero], by simp [entries, List.set]⟩
  | c :: ht, i + 1, b', h => by
    obtain ⟨l, r, h1, h2⟩ := entries_set_decomp ht i b' (Nat.lt_of_succ_lt_succ h)
    refine ⟨entriesChain c ++ l, r, ?_, ?_⟩
    · simp [entries, bucketOf_cons_succ, h1]
    · simp [entries, List.set, h2]

theorem length_pos_of_bucket_ne_nil (ht : hash_table) (i : Nat)
    (hb : bucketOf ht i ≠ []) : 0 < ht.length := by
  cases ht with
  | nil => exact absurd (bucketOf_nil _) hb
  | cons a l => simp

theorem mem_chainKeys_of_get (ht : hash_table) (k : Str) (hk : get ht k ≠ none) :
    k ∈ chainKeys (bucketOf ht (hash k ht.length)) := by
  by_contra hc
  exact hk ((getChain_eq_none k _).mpr hc)

theorem not_mem_tableKeys (ht : hash_table) (k : Str) (hwf : WF ht)
    (hk : k ∉ chainKeys (bucketOf ht (hash k ht.length))) : k ∉ tableKeys ht := by
  intro hmem
  obtain ⟨i, hi, hki⟩ := (mem_tableKeys_iff k ht).mp hmem
  have hik := WF_keys ht hwf i hi k hki
  rw [← hik] at hki
  exact hk hki

theorem mem_tableKeys_insert (ht : hash_table) (k v x : Str) (hlen : 0 < ht.length) :
    x ∈ tableKeys (insert ht k v) ↔ x = k ∨ x ∈ tableKeys ht := by
  rw [insert_def]
  obtain ⟨l, r, h1, h2⟩ := entries_set_decomp ht (hash k ht.length)
    (insertChain k v (bucketOf ht (hash k ht.length))) (hash_lt k ht.length hlen)
  rw [tableKeys_eq_map, tableKeys_eq_map, h1, h2]
  simp only [List.map_append, List.mem_append, map_fst_entriesChain]
  rw [mem_chainKeys_insertChain]
  tauto

theorem mem_tableKeys_set_deleted (ht : hash_table) (k x : Str) (b2 : Chain)
    (hwf : WF ht) (hlen : 0 < ht.length)
    (h : deleteChain k (bucketOf ht (hash k ht.length)) = some b2) :
    x ∈ tableKeys (ht.set (hash k ht.length) b2) ↔ x ∈ tableKeys ht ∧ x ≠ k := by
  have hidx : hash k ht.length < ht.length := hash_lt k ht.length hlen
  constructor
  · intro hx
    obtain ⟨i, hi, hki⟩ := (mem_tableKeys_iff x _).mp hx
    rw [List.length_set] at hi
    by_cases hii : i = hash k ht.length
    · subst hii
      rw [bucketOf_set_self _ _ _ hidx] at hki
      have hmm := (mem_chainKeys_deleteChain k x _ b2 h (hwf _ hidx).1).mp hki
      exact ⟨(mem_tableKeys_iff x ht).mpr ⟨_, hidx, hmm.1⟩, hmm.2⟩
    · rw [bucketOf_set_ne _ _ _ _ hii] at hki
      refine ⟨(mem_tableKeys_iff x ht).mpr ⟨i, hi, hki⟩, ?_⟩
      rintro rfl
      exact hii (WF_keys ht hwf i hi x hki).symm
  · rintro ⟨hx, hxk⟩
    obtain ⟨i, hi, hki⟩ := (mem_tableKeys_iff x ht).mp hx
    refine (mem_tableKeys_iff x _).mpr ?_
    by_cases hii : i = hash k ht.length
    · subst hii
      refine ⟨hash k ht.length, by rw [List.length_set]; exact hidx, ?_⟩
      rw [bucketOf_set_self _ _ _ hidx]
      exact (mem_chainKeys_deleteChain k x _ b2 h (hwf _ hidx).1).mpr ⟨hki, hxk⟩
    · exact ⟨i, by rw [List.length_set]; exact hi,
        by rw [bucketOf_set_ne _ _ _ _ hii]; exact hki⟩

theorem delete_deleted_iff (ht : hash_table) (k : Str) :
    (delete ht k).2 = .deleted ↔ k ∈ chainKeys (bucketOf ht (hash k ht.length)) := by
  by_cases hb : bucketOf ht (hash k ht.length) = []
  · rw [delete_empty ht k hb, hb]
    simp [chainKeys]
  · cases h : deleteChain k (bucketOf ht (hash k ht.length)) with
    | none =>
      rw [delete_miss ht k hb h]
      simp [(deleteChain_eq_none k _).mp h]
    | some b2 =>
      rw [delete_found ht k b2 hb h]
      simp only [true_iff, iff_true]
      by_contra hc
      rw [(deleteChain_eq_none k _).mpr hc] at h
      exact Option.noConfusion h

/-! ### Frame lemmas: entries with other keys are untouched -/

theorem filter_entriesChain_updateValue (k v : Str) (p : Str × Str → Bool)
    (hp : ∀ v2, p (k, v2) = false) :
    ∀ (b b' : Chain), updateValue k v b = some b' →
      (entriesChain b').filter p = (entriesChain b).filter p
  | [], b', h => by simp [updateValue] at h
  | n :: rest, b', h => by
    by_cases hk : n.key = k
    · simp only [updateValue, if_pos hk, Option.some.injEq] at h
      subst h
      simp [entriesChain, List.filter_cons, hk, hp]
    · simp only [updateValue, if_neg hk, Option.map_eq_some'] at h
      obtain ⟨r', hr', rfl⟩ := h
      have ih := filter_entriesChain_updateValue k v p hp rest r' hr'
      simp only [entriesChain] at ih
      simp only [entriesChain, List.map_cons, List.filter_cons, ih]

theorem filter_entriesChain_insertChain (k v : Str) (p : Str × Str → Bool)
    (hp : ∀ v2, p (k, v2) = false) (b : Chain) :
    (entriesChain (insertChain k v b)).filter p = (entriesChain b).filter p := by
  unfold insertChain
  cases h : updateValue k v b with
  | some b2 => exact filter_entriesChain_updateValue k v p hp b b2 h
  | none => simp [entriesChain, List.filter_cons, hp]

theorem filter_entriesChain_deleteChain (k : Str) (p : Str × Str → Bool)
    (hp : ∀ v2, p (k, v2) = false) :
    ∀ (b b' : Chain), deleteChain k b = some b' →
      (entriesChain b').filter p = (entriesChain b).filter p
  | [], b', h => by simp [deleteChain] at h
  | n :: rest, b', h => by
    by_cases hk : n.key = k
    · simp only [deleteChain, if_pos hk, Option.some.injEq] at h
      subst h
      simp [entriesChain, List.filter_cons, hk, hp]
    · simp only [deleteChain, if_neg hk, Option.map_eq_some'] at h
      obtain ⟨r', hr', rfl⟩ := h
      have ih := filter_entriesChain_deleteChain k p hp rest r' hr'
      simp only [entriesChain] at ih
      simp only [entriesChain, List.map_cons, List.filter_cons, ih]

theorem filter_entries_insert (ht : hash_table) (k v : Str) (hlen : 0 < ht.length)
    (p : Str × Str → Bool) (hp : ∀ v2, p (k, v2) = false) :
    (entries (insert ht k v)).filter p = (entries ht).filter p := by
  rw [insert_def]
  obtain ⟨l, r, h1, h2⟩ := entries_set_decomp ht (hash k ht.length)
    (insertChain k v (bucketOf ht (hash k ht.length))) (hash_lt k ht.length hlen)
  rw [h1, h2]
  simp [List.filter_append, filter_entriesChain_insertChain k v p hp]

theorem filter_entries_delete (ht : hash_table) (k : Str)
    (p : Str × Str → Bool) (hp : ∀ v2, p (k, v2) = false) :
    (entries (delete ht k).1).filter p = (entries ht).filter p := by
  by_cases hb : bucketOf ht (hash k ht.length) = []
  · rw [delete_empty ht k hb]
  · cases h : deleteChain k (bucketOf ht (hash k ht.length)) with
    | none => rw [delete_miss ht k hb h]
    | some b2 =>
      rw [delete_found ht k b2 hb h]
      have hlen := length_pos_of_bucket_ne_nil ht (hash k ht.length) hb
      obtain ⟨l, r, h1, h2⟩ := entries_set_decomp ht (hash k ht.length) b2
        (hash_lt k ht.length hlen)
      rw [h1, h2]
      simp [List.filter_append, filter_entriesChain_deleteChain k p hp _ b2 h]

/-! ### Lemmas about operation sequences -/

theorem length_runInserts :
    ∀ (ops : List (Str × Str)) (ht : hash_table), (runInserts ht ops).length = ht.length
  | [], ht => rfl
  | p :: rest, ht => by
    rw [show runInserts ht (p :: rest) = runInserts (insert ht p.1 p.2) rest from rfl,
      length_runInserts rest _, length_insert]

theorem WF_runInserts :
    ∀ (ops : List (Str × Str)) (ht : hash_table), 0 < ht.length → WF ht →
      WF (runInserts ht ops)
  | [], ht, _, hwf => hwf
  | p :: rest, ht, hlen, hwf => by
    rw [show runInserts ht (p :: rest) = runInserts (insert ht p.1 p.2) rest from rfl]
    exact WF_runInserts rest (insert ht p.1 p.2)
      (by rw [length_insert]; exact hlen) (WF_insert ht p.1 p.2 hlen hwf)

theorem get_runInserts :
    ∀ (ops : List (Str × Str)) (ht : hash_table) (k : Str), 0 < ht.length →
      get (runInserts ht ops) k =
        match lastValueOf k ops with
        | some v => some v
        | none => get ht k
  | [], ht, k, _ => by simp [runInserts, lastValueOf]
  | p :: rest, ht, k, hlen => by
    have hlen2 : 0 < (insert ht p.1 p.2).length := by rw [length_insert]; exact hlen
    have ih := get_runInserts rest (insert ht p.1 p.2) k hlen2
    rw [show runInserts ht (p :: rest) = runInserts (insert ht p.1 p.2) rest from rfl, ih]
    show _ = (match lastValueOf k (p :: rest) with
      | some v => some v
      | none => get ht k)
    rw [show lastValueOf k (p :: rest) =
      (match lastValueOf k rest with
        | some v => some v
        | none => if p.1 = k then some p.2 else none) from rfl]
    cases hlast : lastValueOf k rest with
    | some v => rfl
    | none =>
      by_cases hk : p.1 = k
      · subst hk
        simp [get_insert_self ht p.1 p.2 hlen]
      · have hne : k ≠ p.1 := fun hc => hk hc.symm
        simp [hk, get_insert_ne ht p.1 p.2 k hlen hne]

theorem tableKeys_create : ∀ capacity : Nat, tableKeys (create_table capacity) = []
  | 0 => rfl
  | c + 1 => by
    simp [create_table, List.replicate_succ, tableKeys, chainKeys] at tableKeys_create c ⊢
    exact tableKeys_create c

theorem runOps_invariant :
    ∀ (ops : List Op) (ht : hash_table) (s : List Str), 0 < ht.length → WF ht →
      (∀ x, x ∈ tableKeys ht ↔ x ∈ s) →
      ∀ x, x ∈ tableKeys (runOps ht ops) ↔ x ∈ specKeys ops s
  | [], ht, s, _, _, hcorr => by simpa [runOps, specKeys] using hcorr
  | .ins k v :: rest, ht, s, hlen, hwf, hcorr => by
    have step := runOps_invariant rest (insert ht k v) (k :: s)
      (by rw [length_insert]; exact hlen)
      (WF_insert ht k v hlen hwf)
      (fun x => by
        rw [mem_tableKeys_insert ht k v x hlen]
        simp [hcorr x])
    simpa [runOps, specKeys] using step
  | .del k :: rest, ht, s, hlen, hwf, hcorr => by
    have hlen2 : 0 < (delete ht k).1.length := by rw [length_delete]; exact hlen
    have hwf2 := WF_delete ht k hwf
    have hcorr2 : ∀ x, x ∈ tableKeys (delete ht k).1 ↔
        x ∈ s.filter (fun k2 => !decide (k2 = k)) := by
      intro x
      have hfilter : x ∈ s.filter (fun k2 => !decide (k2 = k)) ↔ x ∈ s ∧ x ≠ k := by
        simp [List.mem_filter]
      rw [hfilter]
      by_cases hb : bucketOf ht (hash k ht.length) = []
      · rw [delete_empty ht k hb]
        have hknot : k ∉ tableKeys ht :=
          not_mem_tableKeys ht k hwf (by rw [hb]; simp [chainKeys])
        constructor
        · intro hx
          refine ⟨(hcorr x).mp hx, ?_⟩
          rintro rfl
          exact hknot hx
        · exact fun hx => (hcorr x).mpr hx.1
      · cases h : deleteChain k (bucketOf ht (hash k ht.length)) with
        | none =>
          rw [delete_miss ht k hb h]
          have hknot : k ∉ tableKeys ht :=
            not_mem_tableKeys ht k hwf ((deleteChain_eq_none k _).mp h)
          constructor
          · intro hx
            refine ⟨(hcorr x).mp hx, ?_⟩
            rintro rfl
            exact hknot hx
          · exact fun hx => (hcorr x).mpr hx.1
        | some b2 =>
          rw [delete_found ht k b2 hb h]
          rw [mem_tableKeys_set_deleted ht k x b2 hwf hlen h]
          simp [hcorr x]
    have step := runOps_invariant rest (delete ht k).1
      (s.filter (fun k2 => !decide (k2 = k))) hlen2 hwf2 hcorr2
    simpa [runOps, specKeys] using step

theorem updateValueA_eq_none (k : Str) (nv : Option Str) :
    ∀ b : ChainA, (∀ n ∈ b, n.key ≠ some k) → updateValueA k nv b = none
  | [], _ => rfl
  | n :: rest, h => by
    have hk : ¬ n.key = some k := h n (List.mem_cons_self n rest)
    simp only [updateValueA, if_neg hk, Option.map_eq_none']
    exact updateValueA_eq_none k nv rest (fun m hm => h m (List.mem_cons_of_mem n hm))

/-! ### The claims -/

/-- C1: for every table with positive capacity, every key `k` and value `v`,
`insert` followed by `get` of the same key returns `v` — whether `k` was
absent, present with another value, or colliding in its bucket. -/
theorem insert_get_roundtrip (ht : hash_table) (k v : Str) (hlen : 0 < ht.length) :
    get (insert ht k v) k = some v :=
  get_insert_self ht k v hlen

/-- Witness for C1 at a concrete table, key and value. -/
theorem insert_get_roundtrip_witness :
    0 < (create_table 11).length ∧
      get (insert (create_table 11) (str "Dee") (str "C")) (str "Dee") = some (str "C") :=
  ⟨by decide, insert_get_roundtrip (create_table 11) (str "Dee") (str "C") (by decide)⟩

/-- C2: from any valid table, after any sequence of inserts the table holds at
most one entry with key `k`, and `get k` returns the value of the most recent
insert of `k` in the sequence. -/
theorem insert_uniqueness (ht : hash_table) (ops : List (Str × Str)) (k : Str)
    (hlen : 0 < ht.length) (hwf : WF ht) :
    countKey k (tableKeys (runInserts ht ops)) ≤ 1 ∧
      ∀ v, lastValueOf k ops = some v → get (runInserts ht ops) k = some v := by
  constructor
  · exact count_tableKeys_le_one _ k (WF_runInserts ops ht hlen hwf)
  · intro v hv
    rw [get_runInserts ops ht k hlen, hv]

/-- Witness for C2: two inserts of the same key; the later value wins. -/
theorem insert_uniqueness_witness :
    0 < (create_table 11).length ∧ WF (create_table 11) ∧
      get (runInserts (create_table 11) [(str "Dee", str "1"), (str "Dee", str "2")])
        (str "Dee") = some (str "2") :=
  ⟨by decide, by decide,
    (insert_uniqueness (create_table 11) [(str "Dee", str "1"), (str "Dee", str "2")]
      (str "Dee") (by decide) (by decide)).2 (str "2") (by decide)⟩

/-- C3: deleting a present key signals success, removes exactly one entry,
afterwards `get` of that key signals not-found, and every other key is still
retrievable with its unchanged value. -/
theorem delete_present_key (ht : hash_table) (k : Str) (hlen : 0 < ht.length)
    (hwf : WF ht) (hk : get ht k ≠ none) :
    (delete ht k).2 = .deleted ∧
      get (delete ht k).1 k = none ∧
      (∀ k2, k2 ≠ k → get (delete ht k).1 k2 = get ht k2) ∧
      (entries (delete ht k).1).length + 1 = (entries ht).length := by
  have hmem := mem_chainKeys_of_get ht k hk
  have hidx := hash_lt k ht.length hlen
  have hbne : bucketOf ht (hash k ht.length) ≠ [] := by
    intro hc
    rw [hc] at hmem
    simp [chainKeys] at hmem
  obtain ⟨b2, h2⟩ : ∃ b2, deleteChain k (bucketOf ht (hash k ht.length)) = some b2 := by
    cases h : deleteChain k (bucketOf ht (hash k ht.length)) with
    | none => exact absurd ((deleteChain_eq_none k _).mp h) (by simp [hmem])
    | some b2 => exact ⟨b2, rfl⟩
  rw [delete_found ht k b2 hbne h2]
  refine ⟨rfl, ?_, ?_, ?_⟩
  · rw [get_def]
    simp only [List.length_set]
    rw [bucketOf_set_self _ _ _ hidx, getChain_eq_none]
    intro hc
    exact ((mem_chainKeys_deleteChain k k _ b2 h2 (hwf _ hidx).1).mp hc).2 rfl
  · intro k2 hk2
    rw [get_def, get_def]
    simp only [List.length_set]
    by_cases hsame : hash k2 ht.length = hash k ht.length
    · rw [hsame, bucketOf_set_self _ _ _ hidx]
      exact getChain_deleteChain_ne k k2 hk2 _ b2 h2
    · rw [bucketOf_set_ne _ _ _ _ hsame]
  · obtain ⟨l, r, hE1, hE2⟩ := entries_set_decomp ht (hash k ht.length) b2 hidx
    rw [hE1, hE2]
    simp only [List.length_append]
    have hlc : (bucketOf ht (hash k ht.length)).length = b2.length + 1 :=
      length_deleteChain k _ b2 h2
    have e1 : (entriesChain (bucketOf ht (hash k ht.length))).length
        = (bucketOf ht (hash k ht.length)).length := by simp [entriesChain]
    have e2 : (entriesChain b2).length = b2.length := by simp [entriesChain]
    omega

/-- Witness for C3: deleting "Dennis" from the scenario table. -/
theorem delete_present_key_witness :
    0 < scenarioTable.length ∧ WF scenarioTable ∧
      get scenarioTable (str "Dennis") ≠ none ∧
      get (delete scenarioTable (str "Dennis")).1 (str "Dennis") = none :=
  ⟨by decide, by decide, by decide,
    (delete_present_key scenarioTable (str "Dennis")
      (by decide) (by decide) (by decide)).2.1⟩

/-- C4 as stated is false: a key inserted, successfully deleted, then inserted
again is enumerated by `for_each`, yet it lies both in the set of keys ever
inserted and in the set of keys successfully deleted, so it is missing from
their difference. -/
theorem capacity_invariance_counterexample :
    ¬ ((str "x" ∈ tableKeys (runOps (create_table 11)
          [.ins (str "x") (str "1"), .del (str "x"), .ins (str "x") (str "2")]))
        ↔ (str "x" ∈ insKeys
              [Op.ins (str "x") (str "1"), .del (str "x"), .ins (str "x") (str "2")]
            ∧ str "x" ∉ succDeleted (create_table 11)
                [Op.ins (str "x") (str "1"), .del (str "x"), .ins (str "x") (str "2")])) := by
  decide

/-- C4 (amended): over any positive capacity and any operation sequence, the
keys enumerated by `for_each` are exactly those of the abstract key set that
adds the key on each insert and removes it on each delete; in particular
collisions never lose entries. -/
theorem capacity_invariance (capacity : Nat) (ops : List Op) (k : Str)
    (hcap : 0 < capacity) :
    k ∈ tableKeys (runOps (create_table capacity) ops) ↔ k ∈ specKeys ops [] := by
  apply runOps_invariant ops (create_table capacity) []
    (by simpa [create_table] using hcap) (WF_create capacity)
  intro x
  simp [tableKeys_create]

/-- Witness for C4 (amended): the scenario sequence with a delete. -/
theorem capacity_invariance_witness :
    0 < 11 ∧
      ((str "Dee") ∈ tableKeys (runOps (create_table 11)
          [.ins (str "Charlie") (str "A"), .ins (str "Dee") (str "C"),
           .del (str "Charlie")])
        ↔ (str "Dee") ∈ specKeys
            [Op.ins (str "Charlie") (str "A"), .ins (str "Dee") (str "C"),
             .del (str "Charlie")] []) :=
  ⟨by decide,
    capacity_invariance 11
      [Op.ins (str "Charlie") (str "A"), .ins (str "Dee") (str "C"),
       .del (str "Charlie")] (str "Dee") (by decide)⟩

/-- C5: the hash is the DJB2 variant — accumulator 5381, times 33 plus the
byte with unsigned 64-bit wraparound, reduced mod the capacity, hence in
range for every positive capacity — with the worked values at capacity 11. -/
theorem hash_djb2 :
    (∀ (key : Str) (capacity : Nat), 0 < capacity → hash key capacity < capacity) ∧
    (∀ key : Str, hashAcc key = key.foldl (fun h c => (h * 33 + c) % U64) 5381) ∧
    hash (str "Dennis") 11 = 5 ∧ hash (str "Mac") 11 = 0 ∧
    hash (str "Charlie") 11 = 2 ∧ hash (str "Dee") 11 = 2 := by
  have hstep : hashStep = fun h c => (h * 33 + c) % U64 := by
    funext h c
    unfold hashStep
    have h5 : h <<< 5 = h * 32 := by rw [Nat.shiftLeft_eq]
    rw [h5]
    have h33 : h * 32 + h + c = h * 33 + c := by omega
    rw [h33]
  refine ⟨hash_lt, fun key => ?_, by decide, by decide, by decide, by decide⟩
  rw [hashAcc, hstep]

/-- Witness for C5's range property at a concrete key and capacity. -/
theorem hash_djb2_witness : 0 < 11 ∧ hash (str "Frank") 11 < 11 :=
  ⟨by decide, hash_djb2.1 (str "Frank") 11 (by decide)⟩

/-- C6: inserting an absent key prepends it as the new head of its bucket;
concretely, after inserting ("Charlie","A") then ("Dee","C") at capacity 11,
bucket 2 enumerates Dee before Charlie. -/
theorem insert_prepends (ht : hash_table) (k v : Str) (hlen : 0 < ht.length)
    (habs : get ht k = none) :
    bucketOf (insert ht k v) (hash k ht.length)
        = { key := k, value := v } :: bucketOf ht (hash k ht.length) ∧
      bucketOf (insert (insert (create_table 11) (str "Charlie") (str "A"))
          (str "Dee") (str "C")) 2
        = [{ key := str "Dee", value := str "C" },
           { key := str "Charlie", value := str "A" }] := by
  constructor
  · rw [insert_def, bucketOf_set_self _ _ _ (hash_lt k ht.length hlen)]
    have huv : updateValue k v (bucketOf ht (hash k ht.length)) = none :=
      (updateValue_eq_none k v _).mpr ((getChain_eq_none k _).mp habs)
    unfold insertChain
    rw [huv]
  · decide

/-- Witness for C6 at a concrete table and key. -/
theorem insert_prepends_witness :
    0 < (create_table 11).length ∧ get (create_table 11) (str "Dee") = none ∧
      bucketOf (insert (create_table 11) (str "Dee") (str "C"))
          (hash (str "Dee") (create_table 11).length)
        = { key := str "Dee", value := str "C" }
            :: bucketOf (create_table 11) (hash (str "Dee") (create_table 11).length) :=
  ⟨by decide, by decide,
    (insert_prepends (create_table 11) (str "Dee") (str "C") (by decide) (by decide)).1⟩

/-- C7: inserting an existing key replaces only that value: the full ordered
key list of the table is unchanged and no entry is added; and entries with
other keys survive, in order and with their values, any insert or delete of
key `k`. -/
theorem insert_existing_in_place (ht : hash_table) (k v : Str) (hlen : 0 < ht.length) :
    (get ht k ≠ none →
        tableKeys (insert ht k v) = tableKeys ht ∧
        (entries (insert ht k v)).length = (entries ht).length) ∧
      (entries (insert ht k v)).filter (fun q => !decide (q.1 = k))
        = (entries ht).filter (fun q => !decide (q.1 = k)) ∧
      (entries (delete ht k).1).filter (fun q => !decide (q.1 = k))
        = (entries ht).filter (fun q => !decide (q.1 = k)) := by
  have hp : ∀ v2 : Str, (fun q : Str × Str => !decide (q.1 = k)) (k, v2) = false := by
    intro v2
    simp
  refine ⟨?_, filter_entries_insert ht k v hlen _ hp, filter_entries_delete ht k _ hp⟩
  intro hk
  have hkeys : tableKeys (insert ht k v) = tableKeys ht := by
    rw [insert_def]
    obtain ⟨l, r, h1, h2⟩ := entries_set_decomp ht (hash k ht.length)
      (insertChain k v (bucketOf ht (hash k ht.length))) (hash_lt k ht.length hlen)
    rw [tableKeys_eq_map, tableKeys_eq_map, h1, h2]
    simp only [List.map_append, map_fst_entriesChain]
    rw [chainKeys_insertChain_found k v _ (mem_chainKeys_of_get ht k hk)]
  refine ⟨hkeys, ?_⟩
  have hlens := congrArg List.length hkeys
  simpa [tableKeys_eq_map, List.length_map] using hlens

/-- Witness for C7: overwriting "Charlie" in the scenario table keeps the key
list unchanged. -/
theorem insert_existing_in_place_witness :
    0 < scenarioTable.length ∧ get scenarioTable (str "Charlie") ≠ none ∧
      tableKeys (insert scenarioTable (str "Charlie") (str "Z")) = tableKeys scenarioTable :=
  ⟨by decide, by decide,
    ((insert_existing_in_place scenarioTable (str "Charlie") (str "Z")
      (by decide)).1 (by decide)).1⟩

/-- C8: deleting an absent key leaves the table unchanged and signals
not-found, with the empty-bucket case ("no nodes to delete") observably
distinguished from the scanned non-empty-bucket case. -/
theorem delete_absent_key (ht : hash_table) (k : Str) (habs : get ht k = none) :
    (delete ht k).1 = ht ∧
      (bucketOf ht (hash k ht.length) = [] → (delete ht k).2 = .noNodes) ∧
      (bucketOf ht (hash k ht.length) ≠ [] → (delete ht k).2 = .notFound) := by
  have hnot : k ∉ chainKeys (bucketOf ht (hash k ht.length)) :=
    (getChain_eq_none k _).mp habs
  have hdc : deleteChain k (bucketOf ht (hash k ht.length)) = none :=
    (deleteChain_eq_none k _).mpr hnot
  by_cases hb : bucketOf ht (hash k ht.length) = []
  · rw [delete_empty ht k hb]
    exact ⟨rfl, fun _ => rfl, fun hc => absurd hb hc⟩
  · rw [delete_miss ht k hb hdc]
    exact ⟨rfl, fun hc => absurd hc hb, fun _ => rfl⟩

/-- Witness for C8: deleting "Agamemnon" from the scenario table, whose
bucket is non-empty (it holds "Mac"), leaves the table unchanged and signals
the scanned kind of not-found. -/
theorem delete_absent_key_witness :
    get scenarioTable (str "Agamemnon") = none ∧
      bucketOf scenarioTable (hash (str "Agamemnon") scenarioTable.length) ≠ [] ∧
      (delete scenarioTable (str "Agamemnon")).1 = scenarioTable ∧
      (delete scenarioTable (str "Agamemnon")).2 = .notFound :=
  ⟨by decide, by decide,
    (delete_absent_key scenarioTable (str "Agamemnon") (by decide)).1,
    (delete_absent_key scenarioTable (str "Agamemnon") (by decide)).2.2 (by decide)⟩

/-- C9 as stated is false: when the `strdup` of the key fails during an
insert of a fresh key, the table is not left in its prior state — a partial
entry with a NULL key is linked in — and nothing is printed. -/
theorem insert_alloc_counterexample :
    (insertA ⟨true, false, true⟩ (create_tableA 11) (str "a") (str "b")).1
        ≠ create_tableA 11 ∧
      (insertA ⟨true, false, true⟩ (create_tableA 11) (str "a") (str "b")).2 = [] := by
  decide

/-- C9 (amended): when the node `malloc` — the only allocation `insert`
checks — fails and the key is not already present, insert prints the
diagnostic and aborts, leaving the table unchanged. -/
theorem insert_alloc_node_failure (plan : AllocPlan) (ht : hash_tableA) (k v : Str)
    (hnode : plan.nodeOk = false)
    (habs : ∀ n ∈ bucketOfA ht (hash k ht.length), n.key ≠ some k) :
    insertA plan ht k v = (ht, ["Memory allocation failed"]) := by
  have hup := updateValueA_eq_none k (if plan.valOk then some v else none) _ habs
  unfold insertA
  simp [hup, hnode]

/-- Witness for C9 (amended) at a concrete failing plan and empty table. -/
theorem insert_alloc_node_failure_witness :
    (⟨false, true, true⟩ : AllocPlan).nodeOk = false ∧
      (∀ n ∈ bucketOfA (create_tableA 11) (hash (str "a") (create_tableA 11).length),
        n.key ≠ some (str "a")) ∧
      insertA ⟨false, true, true⟩ (create_tableA 11) (str "a") (str "b")
        = (create_tableA 11, ["Memory allocation failed"]) :=
  ⟨rfl, by decide,
    insert_alloc_node_failure ⟨false, true, true⟩ (create_tableA 11)
      (str "a") (str "b") rfl (by decide)⟩

/-- C10: on a freshly created table of any capacity, `get` returns not-found
for every key and `delete` signals the empty-bucket not-found, leaving the
table unchanged. -/
theorem fresh_table_empty (capacity : Nat) (k : Str) :
    get (create_table capacity) k = none ∧
      delete (create_table capacity) k = (create_table capacity, .noNodes) := by
  have hb : bucketOf (create_table capacity) (hash k (create_table capacity).length) = [] :=
    bucketOf_create capacity _
  constructor
  · rw [get_def, hb]
    rfl
  · exact delete_empty _ k hb

end HashTableC
